import Mathlib

/-!
# Whisper (go-ethereum early PoC) — verification of the envelope pool and codec

A shallow embedding of the Whisper messaging core:

* `src/whisper/envelope.go` — envelope structure, RLP-based canonical
  encoding, lazy Keccak hash, proof-of-work sealing, message opening;
* `src/whisper/whisper.go` — the node's message pool (`add`, `expire`,
  `Send`), identity creation.

Bytes are modelled as naturals (well-formedness predicates carry the
`< 256` bounds where they matter).  The Keccak-256 digest and the ECIES
decryption primitive live outside the analysed sources, so they are taken
as parameters: every theorem below holds for an arbitrary digest
function, which is exactly the strength needed by the claims (hash
determinism, caching, duplicate suppression, PoW bookkeeping).
-/

/-- Minimal big-endian byte representation of a natural number
(the integer encoding used by the canonical RLP scheme): `0` maps to the
empty string, otherwise the most significant byte comes first. -/
def beBytes (n : Nat) : List Nat :=
  if h : n = 0 then [] else beBytes (n / 256) ++ [n % 256]
decreasing_by exact Nat.div_lt_self (Nat.pos_of_ne_zero h) (by omega)

/-- Big-endian interpretation of a byte string as a natural number. -/
def beNat (l : List Nat) : Nat :=
  l.foldl (fun a b => a * 256 + b) 0

theorem beNat_cons (b : Nat) (l : List Nat) :
    beNat (b :: l) = l.foldl (fun a c => a * 256 + c) b := by
  simp [beNat]

theorem beNat_foldl_shift (l : List Nat) (a : Nat) :
    l.foldl (fun x c => x * 256 + c) a = a * 256 ^ l.length + beNat l := by
  induction l generalizing a with
  | nil => simp [beNat]
  | cons b t ih =>
      simp only [List.foldl_cons, beNat_cons, List.length_cons]
      rw [ih (a * 256 + b), ih b]
      ring

theorem beNat_append (l r : List Nat) :
    beNat (l ++ r) = beNat l * 256 ^ r.length + beNat r := by
  unfold beNat
  rw [List.foldl_append]
  exact beNat_foldl_shift r (List.foldl (fun a b => a * 256 + b) 0 l)

theorem beNat_beBytes (n : Nat) : beNat (beBytes n) = n := by
  induction n using Nat.strong_induction_on with
  | _ n ih =>
      by_cases h : n = 0
      · subst h; simp [beBytes, beNat]
      · rw [beBytes, dif_neg h, beNat_append]
        have hlt : n / 256 < n := Nat.div_lt_self (Nat.pos_of_ne_zero h) (by omega)
        rw [ih (n / 256) hlt]
        simp [beNat]
        omega

theorem beBytes_eq_nil_iff (n : Nat) : beBytes n = [] ↔ n = 0 := by
  constructor
  · intro h
    by_contra hn
    rw [beBytes, dif_neg hn] at h
    simp at h
  · intro h; subst h; simp [beBytes]

theorem beBytes_lt (n : Nat) : ∀ b ∈ beBytes n, b < 256 := by
  induction n using Nat.strong_induction_on with
  | _ n ih =>
      by_cases h : n = 0
      · subst h; simp [beBytes]
      · rw [beBytes, dif_neg h]
        intro b hb
        rcases List.mem_append.1 hb with hl | hr
        · exact ih (n / 256) (Nat.div_lt_self (Nat.pos_of_ne_zero h) (by omega)) b hl
        · simp at hr; subst hr; exact Nat.mod_lt _ (by omega)

theorem beBytes_length_le (n k : Nat) (h : n < 256 ^ k) :
    (beBytes n).length ≤ k := by
  induction k generalizing n with
  | zero =>
      simp at h
      subst h
      simp [beBytes]
  | succ k ih =>
      by_cases hn : n = 0
      · subst hn; simp [beBytes]
      · rw [beBytes, dif_neg hn]
        have : n / 256 < 256 ^ k := by
          rw [Nat.div_lt_iff_lt_mul (by omega)]
          calc n < 256 ^ (k + 1) := h
            _ = 256 ^ k * 256 := by ring
        simpa using Nat.succ_le_succ (ih (n / 256) this)

theorem beBytes_headD_ne_zero : ∀ n, n ≠ 0 → (beBytes n).headD 0 ≠ 0 := by
  intro n
  induction n using Nat.strong_induction_on with
  | _ n ih =>
      intro h
      rw [beBytes, dif_neg h]
      by_cases h2 : n / 256 = 0
      · have hn : n < 256 := (Nat.div_eq_zero_iff (by omega)).1 h2
        rw [h2]
        simp [beBytes]
        omega
      · have hne : beBytes (n / 256) ≠ [] := by
          rw [ne_eq, beBytes_eq_nil_iff]; exact h2
        rcases List.exists_cons_of_ne_nil hne with ⟨b, t, hbt⟩
        rw [hbt]
        have := ih (n / 256) (Nat.div_lt_self (Nat.pos_of_ne_zero h) (by omega)) h2
        rw [hbt] at this
        simpa using this

/-- RLP encoding of a byte string (`rlp` package, string case): a single
byte below `0x80` is its own encoding; short strings get a one-byte
`0x80 + len` header; strings of 56 bytes or more get a `0xb7 + lenlen`
header followed by the big-endian length. -/
def encBytes (s : List Nat) : List Nat :=
  match s with
  | [b] => if b < 128 then [b] else [129, b]
  | _ =>
      if s.length < 56 then (128 + s.length) :: s
      else (183 + (beBytes s.length).length) :: (beBytes s.length ++ s)

/-- RLP header for a list whose already-encoded payload is `p`. -/
def encList (p : List Nat) : List Nat :=
  if p.length < 56 then (192 + p.length) :: p
  else (247 + (beBytes p.length).length) :: (beBytes p.length ++ p)

/-- RLP encoding of an unsigned integer: the minimal big-endian byte
string, encoded as a string. -/
def encUint (n : Nat) : List Nat := encBytes (beBytes n)

/-- RLP string decoder over a byte stream: returns the decoded byte
string and the unconsumed remainder.  Mirrors the `rlp` package reader:
single bytes below `0x80` stand for themselves; short and long string
headers carry the length; canonicity is enforced (a one-byte string
below `0x80` must not use a header, long lengths must not have leading
zeros and must be at least 56); a list header is a type error. -/
def parseBytes : List Nat → Option (List Nat × List Nat)
  | [] => none
  | b :: rest =>
    if b < 128 then some ([b], rest)
    else if b < 184 then
      let n := b - 128
      if rest.length < n then none
      else if n = 1 ∧ rest.headD 0 < 128 then none
      else some (rest.take n, rest.drop n)
    else if b < 192 then
      let L := b - 183
      if rest.length < L then none
      else
        let lb := rest.take L
        let r2 := rest.drop L
        if lb.headD 0 = 0 then none
        else
          let n := beNat lb
          if n < 56 then none
          else if r2.length < n then none
          else some (r2.take n, r2.drop n)
    else none

/-- RLP list decoder: consumes a list header and returns the list
payload (still encoded) and the unconsumed remainder. -/
def parseListPayload : List Nat → Option (List Nat × List Nat)
  | [] => none
  | b :: rest =>
    if b < 192 then none
    else if b < 248 then
      let n := b - 192
      if rest.length < n then none else some (rest.take n, rest.drop n)
    else
      let L := b - 247
      if rest.length < L then none
      else
        let lb := rest.take L
        let r2 := rest.drop L
        if lb.headD 0 = 0 then none
        else
          let n := beNat lb
          if n < 56 then none
          else if r2.length < n then none
          else some (r2.take n, r2.drop n)

/-- RLP unsigned-integer decoder (`w` is the maximal byte width, 4 for
a `uint32`): a canonical integer has no leading zero byte and fits the
width. -/
def parseUint (w : Nat) (l : List Nat) : Option (Nat × List Nat) :=
  match parseBytes l with
  | none => none
  | some (s, rest) =>
      if s.length ≤ w ∧ s.headD 1 ≠ 0 then some (beNat s, rest) else none

/-- Decoder for a `[]Topic` payload: a sequence of exactly-4-byte
strings.  `fuel` bounds the number of elements (each element consumes at
least one byte, so the payload length is enough fuel). -/
def parseTopics : Nat → List Nat → Option (List (List Nat))
  | _, [] => some []
  | 0, _ :: _ => none
  | fuel + 1, b :: rest =>
      match parseBytes (b :: rest) with
      | none => none
      | some (t, r) =>
          if t.length = 4 then
            match parseTopics fuel r with
            | none => none
            | some ts => some (t :: ts)
          else none

theorem parseBytes_encBytes (s rest : List Nat) (hb : ∀ b ∈ s, b < 256)
    (hlen : s.length < 256 ^ 8) :
    parseBytes (encBytes s ++ rest) = some (s, rest) := by
  match s with
  | [] => simp [encBytes, parseBytes]
  | [b] =>
      have hb256 : b < 256 := hb b (by simp)
      by_cases hlt : b < 128
      · simp [encBytes, hlt, parseBytes]
      · simp only [encBytes, if_neg hlt, List.cons_append, List.nil_append]
        simp [parseBytes, hlt]
  | a :: c :: t =>
      have henc : encBytes (a :: c :: t) =
          if (a :: c :: t).length < 56 then (128 + (a :: c :: t).length) :: (a :: c :: t)
          else (183 + (beBytes (a :: c :: t).length).length) ::
            (beBytes (a :: c :: t).length ++ (a :: c :: t)) := rfl
      by_cases hshort : (a :: c :: t).length < 56
      · rw [henc, if_pos hshort, List.cons_append, parseBytes]
        have h1 : ¬ (128 + (a :: c :: t).length < 128) := by omega
        have h2 : 128 + (a :: c :: t).length < 184 := by omega
        have heq : 128 + (a :: c :: t).length - 128 = (a :: c :: t).length := by omega
        simp only [if_neg h1, if_pos h2, heq]
        have hrl : ¬ (((a :: c :: t) ++ rest).length < (a :: c :: t).length) := by
          simp only [List.length_append]; omega
        have hn1 : ¬ ((a :: c :: t).length = 1 ∧
            ((a :: c :: t) ++ rest).headD 0 < 128) := by
          intro hcon
          simp at hcon
        rw [if_neg hrl, if_neg hn1, List.take_left, List.drop_left]
      · have hne : (a :: c :: t).length ≠ 0 := by simp
        have hL1 : 1 ≤ (beBytes (a :: c :: t).length).length := by
          rcases Nat.eq_zero_or_pos (beBytes (a :: c :: t).length).length with h0 | h1
          · exact absurd ((beBytes_eq_nil_iff _).1 (List.length_eq_zero.1 h0)) hne
          · exact h1
        have hL8 : (beBytes (a :: c :: t).length).length ≤ 8 :=
          beBytes_length_le _ 8 hlen
        rw [henc, if_neg hshort, List.cons_append, parseBytes]
        have h1 : ¬ (183 + (beBytes (a :: c :: t).length).length < 128) := by omega
        have h2 : ¬ (183 + (beBytes (a :: c :: t).length).length < 184) := by omega
        have h3 : 183 + (beBytes (a :: c :: t).length).length < 192 := by omega
        have hLeq : 183 + (beBytes (a :: c :: t).length).length - 183 =
            (beBytes (a :: c :: t).length).length := by omega
        rw [List.append_assoc]
        simp only [if_neg h1, if_neg h2, if_pos h3, hLeq]
        have hrl : ¬ ((beBytes (a :: c :: t).length ++ ((a :: c :: t) ++ rest)).length <
            (beBytes (a :: c :: t).length).length) := by
          simp only [List.length_append]; omega
        rw [if_neg hrl, List.take_left, List.drop_left]
        have hhd : ¬ ((beBytes (a :: c :: t).length).headD 0 = 0) :=
          beBytes_headD_ne_zero _ hne
        rw [if_neg hhd]
        simp only [beNat_beBytes]
        have hr2 : ¬ (((a :: c :: t) ++ rest).length < (a :: c :: t).length) := by
          simp only [List.length_append]; omega
        rw [if_neg hshort, if_neg hr2, List.take_left, List.drop_left]

theorem parseListPayload_encList (p rest : List Nat) (hlen : p.length < 256 ^ 8) :
    parseListPayload (encList p ++ rest) = some (p, rest) := by
  by_cases hshort : p.length < 56
  · rw [encList, if_pos hshort, List.cons_append, parseListPayload]
    have h1 : ¬ (192 + p.length < 192) := by omega
    have h2 : 192 + p.length < 248 := by omega
    have heq : 192 + p.length - 192 = p.length := by omega
    simp only [if_neg h1, if_pos h2, heq]
    have hrl : ¬ ((p ++ rest).length < p.length) := by
      simp only [List.length_append]; omega
    rw [if_neg hrl, List.take_left, List.drop_left]
  · have hne : p.length ≠ 0 := by omega
    have hL1 : 1 ≤ (beBytes p.length).length := by
      rcases Nat.eq_zero_or_pos (beBytes p.length).length with h0 | h1
      · exact absurd ((beBytes_eq_nil_iff _).1 (List.length_eq_zero.1 h0)) hne
      · exact h1
    have hL8 : (beBytes p.length).length ≤ 8 := beBytes_length_le _ 8 hlen
    rw [encList, if_neg hshort, List.cons_append, parseListPayload]
    have h1 : ¬ (247 + (beBytes p.length).length < 192) := by omega
    have h2 : ¬ (247 + (beBytes p.length).length < 248) := by omega
    have hLeq : 247 + (beBytes p.length).length - 247 = (beBytes p.length).length := by
      omega
    rw [List.append_assoc]
    simp only [if_neg h1, if_neg h2, hLeq]
    have hrl : ¬ ((beBytes p.length ++ (p ++ rest)).length <
        (beBytes p.length).length) := by
      simp only [List.length_append]; omega
    rw [if_neg hrl, List.take_left, List.drop_left]
    have hhd : ¬ ((beBytes p.length).headD 0 = 0) := beBytes_headD_ne_zero _ hne
    rw [if_neg hhd]
    simp only [beNat_beBytes]
    have hr2 : ¬ ((p ++ rest).length < p.length) := by
      simp only [List.length_append]; omega
    rw [if_neg hshort, if_neg hr2, List.take_left, List.drop_left]

theorem parseUint_encUint (n : Nat) (rest : List Nat) (h : n < 2 ^ 32) :
    parseUint 4 (encUint n ++ rest) = some (n, rest) := by
  have hb : ∀ b ∈ beBytes n, b < 256 := beBytes_lt n
  have hlen : (beBytes n).length < 256 ^ 8 := by
    have := beBytes_length_le n 4 (by norm_num at h ⊢; omega)
    omega
  rw [encUint, parseUint, parseBytes_encBytes _ _ hb hlen]
  have hlen4 : (beBytes n).length ≤ 4 := beBytes_length_le n 4 (by norm_num at h ⊢; omega)
  have hhd : (beBytes n).headD 1 ≠ 0 := by
    by_cases hn : n = 0
    · subst hn; simp [beBytes]
    · have hne : beBytes n ≠ [] := by rw [ne_eq, beBytes_eq_nil_iff]; exact hn
      rcases List.exists_cons_of_ne_nil hne with ⟨b, t, hbt⟩
      have := beBytes_headD_ne_zero n hn
      rw [hbt] at this ⊢
      simpa using this
  simp only [if_pos (And.intro hlen4 hhd), beNat_beBytes]

/-- Encoded payload of a `[]Topic` value: concatenation of the string
encodings of the 4-byte topics. -/
def topicsPayload (ts : List (List Nat)) : List Nat :=
  (ts.map encBytes).flatten

theorem encBytes_topic (t : List Nat) (h4 : t.length = 4) :
    encBytes t = 132 :: t := by
  match t with
  | [b0, b1, b2, b3] =>
      show encBytes [b0, b1, b2, b3] = 132 :: [b0, b1, b2, b3]
      rfl

theorem parseTopics_topicsPayload (ts : List (List Nat))
    (hw : ∀ t ∈ ts, t.length = 4 ∧ ∀ b ∈ t, b < 256) :
    ∀ fuel, ts.length ≤ fuel →
      parseTopics fuel (topicsPayload ts) = some ts := by
  induction ts with
  | nil =>
      intro fuel _
      show parseTopics fuel [] = some []
      match fuel with
      | 0 => rfl
      | fuel + 1 => rfl
  | cons t ts ih =>
      intro fuel hfuel
      have ht := hw t (by simp)
      have henc : encBytes t = 132 :: t := encBytes_topic t ht.1
      have hpay : topicsPayload (t :: ts) = 132 :: (t ++ topicsPayload ts) := by
        show (encBytes t) ++ (ts.map encBytes).flatten = _
        rw [henc]
        rfl
      match fuel with
      | 0 => simp at hfuel
      | fuel + 1 =>
          rw [hpay]
          show (match parseBytes (132 :: (t ++ topicsPayload ts)) with
            | none => none
            | some (u, r) =>
                if u.length = 4 then
                  match parseTopics fuel r with
                  | none => none
                  | some us => some (u :: us)
                else none) = some (t :: ts)
          have hpb : parseBytes (132 :: (t ++ topicsPayload ts)) =
              some (t, topicsPayload ts) := by
            have := parseBytes_encBytes t (topicsPayload ts) ht.2
              (by rw [ht.1]; norm_num)
            rw [henc] at this
            simpa using this
          rw [hpb]
          simp only [ht.1, if_pos rfl]
          rw [ih (fun u hu => hw u (by simp [hu])) fuel (by simpa using Nat.le_of_succ_le_succ hfuel)]
          simp

/-- The Whisper envelope (`envelope.go`): the five wire fields plus the
cached lazy hash (`common.Hash` zero value when not yet computed). -/
structure Envelope where
  Expiry : Nat
  TTL : Nat
  Topics : List (List Nat)
  Data : List Nat
  Nonce : Nat
  hash : List Nat
deriving DecidableEq, Repr

/-- The zero value of `common.Hash`: 32 zero bytes. -/
def zeroHash : List Nat := List.replicate 32 0

/-- RLP payload of the envelope struct: the five exported fields in
declaration order (the unexported cached hash is not encoded). -/
def envPayload (e : Envelope) : List Nat :=
  encUint e.Expiry ++ encUint e.TTL ++ encList (topicsPayload e.Topics) ++
    encBytes e.Data ++ encUint e.Nonce

/-- `rlp.EncodeToBytes(self)`: the canonical encoding of an envelope. -/
def encodeEnvelope (e : Envelope) : List Nat := encList (envPayload e)

/-- `rlpWithoutNonce`: RLP list of the first four fields only, used as
the proof-of-work base. -/
def rlpWithoutNonce (e : Envelope) : List Nat :=
  encList (encUint e.Expiry ++ encUint e.TTL ++
    encList (topicsPayload e.Topics) ++ encBytes e.Data)

/-- Well-formed envelope: field values fit the Go types (`uint32`
fields, byte slices, 4-byte topics). -/
def wfEnvelope (e : Envelope) : Prop :=
  e.Expiry < 2 ^ 32 ∧ e.TTL < 2 ^ 32 ∧ e.Nonce < 2 ^ 32 ∧
  (∀ t ∈ e.Topics, t.length = 4 ∧ ∀ b ∈ t, b < 256) ∧
  (∀ b ∈ e.Data, b < 256) ∧ e.Data.length < 2 ^ 32 ∧ e.Topics.length < 2 ^ 32

instance (e : Envelope) : Decidable (wfEnvelope e) := by
  unfold wfEnvelope
  infer_instance

/-- `Envelope.Hash`: returns the cached Keccak-256 hash of the canonical
encoding, computing and caching it when the cache still holds the zero
value.  The digest function is a parameter (its implementation lives
outside the analysed sources). -/
def Envelope.Hash (keccak : List Nat → List Nat) (e : Envelope) :
    List Nat × Envelope :=
  if e.hash = zeroHash then
    (keccak (encodeEnvelope e), { e with hash := keccak (encodeEnvelope e) })
  else (e.hash, e)

/-- `Envelope.DecodeRLP`: decode the five fields from the raw item and
cache the Keccak-256 hash of the raw bytes. -/
def decodeEnvelope (keccak : List Nat → List Nat) (raw : List Nat) :
    Option Envelope :=
  match parseListPayload raw with
  | none => none
  | some (p, rest) =>
    if rest.isEmpty then
      match parseUint 4 p with
      | none => none
      | some (expiry, r1) =>
        match parseUint 4 r1 with
        | none => none
        | some (ttl, r2) =>
          match parseListPayload r2 with
          | none => none
          | some (tp, r3) =>
            match parseTopics tp.length tp with
            | none => none
            | some ts =>
              match parseBytes r3 with
              | none => none
              | some (dat, r4) =>
                match parseUint 4 r4 with
                | none => none
                | some (nonce, r5) =>
                  if r5.isEmpty then
                    some { Expiry := expiry, TTL := ttl, Topics := ts,
                           Data := dat, Nonce := nonce, hash := keccak raw }
                  else none
    else none

theorem topicsPayload_length (ts : List (List Nat))
    (hw : ∀ t ∈ ts, t.length = 4 ∧ ∀ b ∈ t, b < 256) :
    (topicsPayload ts).length = 5 * ts.length := by
  induction ts with
  | nil => rfl
  | cons t ts ih =>
      have ht := hw t (by simp)
      have : topicsPayload (t :: ts) = encBytes t ++ topicsPayload ts := rfl
      rw [this, List.length_append, encBytes_topic t ht.1,
        ih (fun u hu => hw u (by simp [hu]))]
      simp [ht.1]
      ring

theorem encBytes_length_le (s : List Nat) (h : s.length < 256 ^ 8) :
    (encBytes s).length ≤ s.length + 9 := by
  match s with
  | [] => simp [encBytes]
  | [b] =>
      by_cases hlt : b < 128 <;> simp [encBytes, hlt]
  | a :: c :: t =>
      have henc : encBytes (a :: c :: t) =
          if (a :: c :: t).length < 56 then (128 + (a :: c :: t).length) :: (a :: c :: t)
          else (183 + (beBytes (a :: c :: t).length).length) ::
            (beBytes (a :: c :: t).length ++ (a :: c :: t)) := rfl
      by_cases hshort : (a :: c :: t).length < 56
      · rw [henc, if_pos hshort]; simp
      · rw [henc, if_neg hshort]
        have hL8 : (beBytes (a :: c :: t).length).length ≤ 8 :=
          beBytes_length_le _ 8 h
        simp only [List.length_cons] at hL8
        simp only [List.length_cons, List.length_append]
        omega

theorem encList_length_le (p : List Nat) (h : p.length < 256 ^ 8) :
    (encList p).length ≤ p.length + 9 := by
  by_cases hshort : p.length < 56
  · rw [encList, if_pos hshort]; simp
  · rw [encList, if_neg hshort]
    have hL8 : (beBytes p.length).length ≤ 8 := beBytes_length_le _ 8 h
    simp only [List.length_cons, List.length_append]
    omega

theorem encUint_length_le (n : Nat) (h : n < 2 ^ 32) :
    (encUint n).length ≤ 13 := by
  have h4 : (beBytes n).length ≤ 4 := beBytes_length_le n 4 (by norm_num at h ⊢; omega)
  have := encBytes_length_le (beBytes n) (by norm_num; omega)
  rw [encUint]
  omega

theorem envPayload_length_lt (e : Envelope) (hw : wfEnvelope e) :
    (envPayload e).length < 256 ^ 8 := by
  obtain ⟨h1, h2, h3, h4, h5, h6, h7⟩ := hw
  have htp : (topicsPayload e.Topics).length = 5 * e.Topics.length :=
    topicsPayload_length _ h4
  have hpow : (256 : Nat) ^ 8 = 2 ^ 64 := by norm_num
  have ha : (encUint e.Expiry).length ≤ 13 := encUint_length_le _ h1
  have hb : (encUint e.TTL).length ≤ 13 := encUint_length_le _ h2
  have hc : (encUint e.Nonce).length ≤ 13 := encUint_length_le _ h3
  have hd : (encList (topicsPayload e.Topics)).length ≤
      (topicsPayload e.Topics).length + 9 := by
    apply encList_length_le
    rw [htp, hpow]
    have : (2 : Nat) ^ 32 ≤ 2 ^ 64 := Nat.pow_le_pow_right (by omega) (by omega)
    calc 5 * e.Topics.length < 5 * 2 ^ 32 := by omega
      _ < 2 ^ 64 := by norm_num
  have he : (encBytes e.Data).length ≤ e.Data.length + 9 := by
    apply encBytes_length_le
    rw [hpow]
    calc e.Data.length < 2 ^ 32 := h6
      _ < 2 ^ 64 := by norm_num
  rw [envPayload]
  simp only [List.length_append]
  rw [hpow]
  have hD : e.Data.length < 2 ^ 32 := h6
  have hT : 5 * e.Topics.length < 5 * 2 ^ 32 := by omega
  norm_num at hT ⊢
  omega

theorem decodeEnvelope_encodeEnvelope (keccak : List Nat → List Nat)
    (e : Envelope) (hw : wfEnvelope e) :
    decodeEnvelope keccak (encodeEnvelope e) =
      some { e with hash := keccak (encodeEnvelope e) } := by
  obtain ⟨h1, h2, h3, h4, h5, h6, h7⟩ := hw
  have hplen : (envPayload e).length < 256 ^ 8 :=
    envPayload_length_lt e ⟨h1, h2, h3, h4, h5, h6, h7⟩
  have htp : (topicsPayload e.Topics).length = 5 * e.Topics.length :=
    topicsPayload_length _ h4
  have htplen : (topicsPayload e.Topics).length < 256 ^ 8 := by
    rw [htp]
    have : (256 : Nat) ^ 8 = 2 ^ 64 := by norm_num
    rw [this]
    calc 5 * e.Topics.length < 5 * 2 ^ 32 := by omega
      _ < 2 ^ 64 := by norm_num
  have hdlen : e.Data.length < 256 ^ 8 := by
    have : (256 : Nat) ^ 8 = 2 ^ 64 := by norm_num
    rw [this]
    calc e.Data.length < 2 ^ 32 := h6
      _ < 2 ^ 64 := by norm_num
  have houter : parseListPayload (encodeEnvelope e) = some (envPayload e, []) := by
    have := parseListPayload_encList (envPayload e) [] hplen
    rw [List.append_nil] at this
    exact this
  have hp : envPayload e =
      encUint e.Expiry ++ (encUint e.TTL ++ (encList (topicsPayload e.Topics) ++
        (encBytes e.Data ++ encUint e.Nonce))) := by
    rw [envPayload]
    simp [List.append_assoc]
  have pe : ∀ r, parseUint 4 (encUint e.Expiry ++ r) = some (e.Expiry, r) :=
    fun r => parseUint_encUint _ r h1
  have pt : ∀ r, parseUint 4 (encUint e.TTL ++ r) = some (e.TTL, r) :=
    fun r => parseUint_encUint _ r h2
  have ptl : ∀ r, parseListPayload (encList (topicsPayload e.Topics) ++ r) =
      some (topicsPayload e.Topics, r) :=
    fun r => parseListPayload_encList _ r htplen
  have ptop : parseTopics (topicsPayload e.Topics).length (topicsPayload e.Topics) =
      some e.Topics :=
    parseTopics_topicsPayload _ h4 _ (by rw [htp]; omega)
  have pd : ∀ r, parseBytes (encBytes e.Data ++ r) = some (e.Data, r) :=
    fun r => parseBytes_encBytes _ r h5 hdlen
  have pn : parseUint 4 (encUint e.Nonce) = some (e.Nonce, []) := by
    have := parseUint_encUint e.Nonce [] h3
    rwa [List.append_nil] at this
  rw [decodeEnvelope, houter]
  simp only [List.isEmpty_nil, if_pos, hp, pe, pt, ptl, ptop, pd, pn]

/-- The cached hash is either still unset (the zero value) or agrees
with the digest of the canonical encoding — the states reachable for an
envelope built by `NewEnvelope` (zero), `Hash` (computed) or `DecodeRLP`
(digest of the raw bytes, which are the canonical encoding). -/
def hashConsistent (keccak : List Nat → List Nat) (e : Envelope) : Prop :=
  e.hash = zeroHash ∨ e.hash = keccak (encodeEnvelope e)

theorem encodeEnvelope_hash_irrelevant (e : Envelope) (x : List Nat) :
    encodeEnvelope { e with hash := x } = encodeEnvelope e := rfl

/-- C4: `Hash()` equals the Keccak-256 digest of the canonical RLP
encoding of the five fields, is stable (a second call returns the same
value and leaves the envelope unchanged, so it is computed at most
once), and the envelope obtained by decoding the encoding of `e` has
the same hash as `e`. -/
theorem envelope_hash_deterministic_and_roundtrip
    (keccak : List Nat → List Nat) (e : Envelope)
    (hc : hashConsistent keccak e) (hw : wfEnvelope e) :
    (e.Hash keccak).1 = keccak (encodeEnvelope e) ∧
    (e.Hash keccak).2.Hash keccak = ((e.Hash keccak).1, (e.Hash keccak).2) ∧
    decodeEnvelope keccak (encodeEnvelope e) =
      some { e with hash := keccak (encodeEnvelope e) } ∧
    (({ e with hash := keccak (encodeEnvelope e) } : Envelope).Hash keccak).1 =
      (e.Hash keccak).1 := by
  have hfst : (e.Hash keccak).1 = keccak (encodeEnvelope e) := by
    rw [Envelope.Hash]
    by_cases hz : e.hash = zeroHash
    · rw [if_pos hz]
    · rw [if_neg hz]
      rcases hc with h | h
      · exact absurd h hz
      · exact h
  refine ⟨hfst, ?_, decodeEnvelope_encodeEnvelope keccak e hw, ?_⟩
  · by_cases hz : e.hash = zeroHash
    · have hsnd : (e.Hash keccak).2 = { e with hash := keccak (encodeEnvelope e) } := by
        rw [Envelope.Hash, if_pos hz]
      rw [hsnd, hfst]
      by_cases hz2 : keccak (encodeEnvelope e) = zeroHash
      · rw [Envelope.Hash]
        have hcache : ({ e with hash := keccak (encodeEnvelope e) } : Envelope).hash =
            zeroHash := by simpa using hz2
        rw [if_pos hcache, encodeEnvelope_hash_irrelevant]
      · rw [Envelope.Hash]
        have hcache : ¬ (({ e with hash := keccak (encodeEnvelope e) } : Envelope).hash =
            zeroHash) := by simpa using hz2
        rw [if_neg hcache]
    · simp [Envelope.Hash, hz]
  · rw [hfst]
    by_cases hz2 : keccak (encodeEnvelope e) = zeroHash
    · rw [Envelope.Hash]
      have hcache : ({ e with hash := keccak (encodeEnvelope e) } : Envelope).hash =
          zeroHash := by simpa using hz2
      rw [if_pos hcache, encodeEnvelope_hash_irrelevant]
    · rw [Envelope.Hash]
      have hcache : ¬ (({ e with hash := keccak (encodeEnvelope e) } : Envelope).hash =
          zeroHash) := by simpa using hz2
      rw [if_neg hcache]

/-- The pool state of a Whisper node (`whisper.go`): the two indexes
guarded by `poolMu`.  `messages` maps an envelope hash to the tracked
envelope; `expirations` tells whether a hash sits in the bucket of a
given expiry timestamp (`set.SetNonTS` membership; an absent bucket and
an empty bucket are indistinguishable to the code's observations). -/
structure Whisper where
  messages : List Nat → Option Envelope
  expirations : Nat → List Nat → Bool

/-- Result of `Whisper.add`: the pool after the call, whether the
dispatch goroutine (`go self.postEvent(envelope)`) was launched on this
call, and the returned error. -/
structure AddResult where
  state : Whisper
  dispatched : Bool
  err : Option Unit

/-- `Whisper.add` (run under `poolMu`): reject an already-expired
envelope silently; reject a duplicate hash silently; otherwise insert
into `messages`, then into the expiration bucket for `envelope.Expiry`,
launching the filter dispatch only when the hash was newly added to the
bucket.  Every path returns a nil error.  The stored envelope carries
the hash cached by the `envelope.Hash()` call. -/
def Whisper.add (keccak : List Nat → List Nat) (self : Whisper) (now : Nat)
    (envelope : Envelope) : AddResult :=
  if envelope.Expiry ≤ now then ⟨self, false, none⟩
  else
    let hash := (envelope.Hash keccak).1
    let env := (envelope.Hash keccak).2
    if (self.messages hash).isSome then ⟨self, false, none⟩
    else
      let s1 : Whisper :=
        { self with messages := fun h => if h = hash then some env else self.messages h }
      if self.expirations envelope.Expiry hash then ⟨s1, false, none⟩
      else
        ⟨{ s1 with expirations := fun t h =>
            if t = envelope.Expiry ∧ h = hash then true else self.expirations t h },
          true, none⟩

/-- `Whisper.Send`: defined as `add` (local injection into the pool). -/
def Whisper.Send (keccak : List Nat → List Nat) (self : Whisper) (now : Nat)
    (envelope : Envelope) : AddResult :=
  self.add keccak now envelope

/-- `Whisper.expire` (run under `poolMu`): for every bucket timestamp
not in the future, delete each hash of the bucket from `messages` and
clear the bucket. -/
def Whisper.expire (self : Whisper) (now : Nat) : Whisper :=
  { messages := fun h =>
      if (List.range (now + 1)).any (fun t => self.expirations t h) then none
      else self.messages h,
    expirations := fun t h => if t ≤ now then false else self.expirations t h }

/-- The per-envelope body of the receive loop in `handlePeer`: the
debug-log branch fires exactly when `add` returned a non-nil error. -/
def handlePeerLogsFailure (keccak : List Nat → List Nat) (self : Whisper)
    (now : Nat) (envelope : Envelope) : Bool :=
  ((self.add keccak now envelope).err).isSome

/-- The cross-index invariant: a pooled hash sits in exactly the bucket
of its envelope's expiry, and every bucket member is a pooled hash whose
envelope expires at the bucket's timestamp. -/
def PoolInv (s : Whisper) : Prop :=
  (∀ h e, s.messages h = some e → ∀ t, s.expirations t h = true ↔ t = e.Expiry) ∧
  (∀ t h, s.expirations t h = true → ∃ e, s.messages h = some e ∧ e.Expiry = t)

/-- Liveness of the pool at time `now`: every pooled envelope has a
strictly future expiry. -/
def allLive (s : Whisper) (now : Nat) : Prop :=
  ∀ h e, s.messages h = some e → now < e.Expiry

/-- The empty pool produced by `New()`. -/
def emptyPool : Whisper :=
  { messages := fun _ => none, expirations := fun _ _ => false }

theorem Whisper.ext_state (s1 s2 : Whisper) (hm : s1.messages = s2.messages)
    (he : s1.expirations = s2.expirations) : s1 = s2 := by
  cases s1; cases s2; simp_all

theorem add_stale (keccak : List Nat → List Nat) (s : Whisper) (now : Nat)
    (e : Envelope) (h : e.Expiry ≤ now) :
    s.add keccak now e = ⟨s, false, none⟩ := by
  rw [Whisper.add, if_pos h]

theorem add_duplicate (keccak : List Nat → List Nat) (s : Whisper) (now : Nat)
    (e : Envelope) (h1 : ¬ e.Expiry ≤ now)
    (h2 : (s.messages ((e.Hash keccak).1)).isSome = true) :
    s.add keccak now e = ⟨s, false, none⟩ := by
  rw [Whisper.add, if_neg h1]
  simp only [h2, if_true]

/-- Pool state after inserting the (hash-cached) envelope into the
`messages` index only — the branch where the expiration bucket already
held the hash. -/
def withMsg (keccak : List Nat → List Nat) (s : Whisper) (e : Envelope) : Whisper :=
  { s with messages := fun h =>
      if h = (e.Hash keccak).1 then some ((e.Hash keccak).2) else s.messages h }

/-- Pool state after inserting the envelope into `messages` and its hash
into the bucket keyed by `e.Expiry`. -/
def withMsgBucket (keccak : List Nat → List Nat) (s : Whisper) (e : Envelope) : Whisper :=
  { messages := fun h =>
      if h = (e.Hash keccak).1 then some ((e.Hash keccak).2) else s.messages h,
    expirations := fun t h =>
      if t = e.Expiry ∧ h = (e.Hash keccak).1 then true else s.expirations t h }

theorem add_new_inBucket (keccak : List Nat → List Nat) (s : Whisper) (now : Nat)
    (e : Envelope) (h1 : ¬ e.Expiry ≤ now)
    (h2 : (s.messages ((e.Hash keccak).1)).isSome = false)
    (h3 : s.expirations e.Expiry ((e.Hash keccak).1) = true) :
    s.add keccak now e = ⟨withMsg keccak s e, false, none⟩ := by
  rw [Whisper.add, if_neg h1]
  simp only [h2, h3, Bool.false_eq_true, if_false, if_true]
  rfl

theorem add_new_newBucket (keccak : List Nat → List Nat) (s : Whisper) (now : Nat)
    (e : Envelope) (h1 : ¬ e.Expiry ≤ now)
    (h2 : (s.messages ((e.Hash keccak).1)).isSome = false)
    (h3 : s.expirations e.Expiry ((e.Hash keccak).1) = false) :
    s.add keccak now e = ⟨withMsgBucket keccak s e, true, none⟩ := by
  rw [Whisper.add, if_neg h1]
  simp only [h2, h3, Bool.false_eq_true, if_false, if_true]
  rfl

/-- C1: `add(e)` is idempotent — a second `add` of the same envelope at
any later (or equal) time leaves both indexes exactly as after the first
call, and the second call never launches the filter dispatch (dispatch
runs only on the newly-inserted branch). -/
theorem add_idempotent (keccak : List Nat → List Nat) (s : Whisper)
    (e : Envelope) (t1 t2 : Nat) (h12 : t1 ≤ t2) :
    ((s.add keccak t1 e).state.add keccak t2 e).state = (s.add keccak t1 e).state ∧
    ((s.add keccak t1 e).state.add keccak t2 e).dispatched = false := by
  by_cases hst : e.Expiry ≤ t1
  · rw [add_stale keccak s t1 e hst]
    rw [add_stale keccak s t2 e (le_trans hst h12)]
    exact ⟨rfl, rfl⟩
  · by_cases hst2 : e.Expiry ≤ t2
    · rw [add_stale keccak _ t2 e hst2]
      exact ⟨rfl, rfl⟩
    · by_cases hdup : (s.messages ((e.Hash keccak).1)).isSome = true
      · rw [add_duplicate keccak s t1 e hst hdup]
        rw [add_duplicate keccak s t2 e hst2 hdup]
        exact ⟨rfl, rfl⟩
      · have hdup2 : (s.messages ((e.Hash keccak).1)).isSome = false := by
          simpa using hdup
        by_cases hbkt : s.expirations e.Expiry ((e.Hash keccak).1) = true
        · rw [add_new_inBucket keccak s t1 e hst hdup2 hbkt]
          have hmem : ((withMsg keccak s e).messages ((e.Hash keccak).1)).isSome =
              true := by
            simp [withMsg]
          rw [add_duplicate keccak _ t2 e hst2 hmem]
          exact ⟨rfl, rfl⟩
        · have hbkt2 : s.expirations e.Expiry ((e.Hash keccak).1) = false := by
            simpa using hbkt
          rw [add_new_newBucket keccak s t1 e hst hdup2 hbkt2]
          have hmem : ((withMsgBucket keccak s e).messages ((e.Hash keccak).1)).isSome =
              true := by
            simp [withMsgBucket]
          rw [add_duplicate keccak _ t2 e hst2 hmem]
          exact ⟨rfl, rfl⟩

theorem Hash_snd_Expiry (keccak : List Nat → List Nat) (e : Envelope) :
    ((e.Hash keccak).2).Expiry = e.Expiry := by
  rw [Envelope.Hash]
  split <;> rfl

theorem range_any_iff (now : Nat) (f : Nat → Bool) :
    (List.range (now + 1)).any f = true ↔ ∃ t, t ≤ now ∧ f t = true := by
  simp [List.any_eq_true, List.mem_range, Nat.lt_succ_iff]

theorem expire_messages (s : Whisper) (now : Nat) (h : List Nat) :
    (s.expire now).messages h =
      if (List.range (now + 1)).any (fun t => s.expirations t h) then none
      else s.messages h := rfl

theorem expire_expirations (s : Whisper) (now t : Nat) (h : List Nat) :
    (s.expire now).expirations t h = if t ≤ now then false else s.expirations t h := rfl

theorem expire_preserves_inv (s : Whisper) (now : Nat) (hinv : PoolInv s) :
    PoolInv (s.expire now) := by
  obtain ⟨inv1, inv2⟩ := hinv
  constructor
  · intro h e hm t
    rw [expire_messages] at hm
    by_cases hany : (List.range (now + 1)).any (fun t => s.expirations t h) = true
    · rw [if_pos hany] at hm; exact absurd hm (by simp)
    · rw [if_neg hany] at hm
      have hnostale : ∀ u, u ≤ now → s.expirations u h = false := by
        intro u hu
        by_contra hcon
        exact hany ((range_any_iff now _).2 ⟨u, hu, by simpa using hcon⟩)
      rw [expire_expirations]
      by_cases ht : t ≤ now
      · rw [if_pos ht]
        constructor
        · intro hfalse; exact absurd hfalse (by simp)
        · intro hexp
          subst hexp
          have := (inv1 h e hm e.Expiry).2 rfl
          rw [hnostale e.Expiry ht] at this
          exact absurd this (by simp)
      · rw [if_neg ht]
        exact inv1 h e hm t
  · intro t h hexp
    rw [expire_expirations] at hexp
    by_cases ht : t ≤ now
    · rw [if_pos ht] at hexp; exact absurd hexp (by simp)
    · rw [if_neg ht] at hexp
      obtain ⟨e, hm, hE⟩ := inv2 t h hexp
      refine ⟨e, ?_, hE⟩
      rw [expire_messages]
      have hany : ¬ ((List.range (now + 1)).any (fun t => s.expirations t h) = true) := by
        intro hcon
        obtain ⟨u, hu, hexpu⟩ := (range_any_iff now _).1 hcon
        have := (inv1 h e hm u).1 hexpu
        omega
      rw [if_neg hany]
      exact hm

theorem add_preserves_inv (keccak : List Nat → List Nat) (s : Whisper) (now : Nat)
    (e : Envelope) (hinv : PoolInv s) :
    PoolInv (s.add keccak now e).state := by
  obtain ⟨inv1, inv2⟩ := hinv
  by_cases hst : e.Expiry ≤ now
  · rw [add_stale keccak s now e hst]; exact ⟨inv1, inv2⟩
  · by_cases hdup : (s.messages ((e.Hash keccak).1)).isSome = true
    · rw [add_duplicate keccak s now e hst hdup]; exact ⟨inv1, inv2⟩
    · have hdup2 : (s.messages ((e.Hash keccak).1)).isSome = false := by simpa using hdup
      by_cases hbkt : s.expirations e.Expiry ((e.Hash keccak).1) = true
      · obtain ⟨e0, hm0, _⟩ := inv2 e.Expiry ((e.Hash keccak).1) hbkt
        rw [hm0] at hdup2
        exact absurd hdup2 (by simp)
      · have hbkt2 : s.expirations e.Expiry ((e.Hash keccak).1) = false := by
          simpa using hbkt
        rw [add_new_newBucket keccak s now e hst hdup2 hbkt2]
        constructor
        · intro h e1 hm t
          by_cases hh : h = (e.Hash keccak).1
          · subst hh
            rw [show (withMsgBucket keccak s e).messages ((e.Hash keccak).1) =
                some ((e.Hash keccak).2) by simp [withMsgBucket]] at hm
            have he1 : e1 = (e.Hash keccak).2 := (Option.some.inj hm).symm
            subst he1
            rw [Hash_snd_Expiry]
            rw [show (withMsgBucket keccak s e).expirations t ((e.Hash keccak).1) =
                if t = e.Expiry ∧ (e.Hash keccak).1 = (e.Hash keccak).1 then true
                else s.expirations t ((e.Hash keccak).1) from rfl]
            by_cases ht : t = e.Expiry
            · simp [ht]
            · rw [if_neg (by simp [ht])]
              constructor
              · intro hexp
                obtain ⟨e2, hm2, _⟩ := inv2 t _ hexp
                rw [hm2] at hdup2
                exact absurd hdup2 (by simp)
              · intro hcon; exact absurd hcon ht
          · rw [show (withMsgBucket keccak s e).messages h =
                (if h = (e.Hash keccak).1 then some ((e.Hash keccak).2)
                  else s.messages h) from rfl, if_neg hh] at hm
            rw [show (withMsgBucket keccak s e).expirations t h =
                (if t = e.Expiry ∧ h = (e.Hash keccak).1 then true
                  else s.expirations t h) from rfl,
              if_neg (by simp [hh])]
            exact inv1 h e1 hm t
        · intro t h hexp
          rw [show (withMsgBucket keccak s e).expirations t h =
              (if t = e.Expiry ∧ h = (e.Hash keccak).1 then true
                else s.expirations t h) from rfl] at hexp
          by_cases hth : t = e.Expiry ∧ h = (e.Hash keccak).1
          · refine ⟨(e.Hash keccak).2, ?_, ?_⟩
            · rw [show (withMsgBucket keccak s e).messages h =
                  (if h = (e.Hash keccak).1 then some ((e.Hash keccak).2)
                    else s.messages h) from rfl, if_pos hth.2]
            · rw [Hash_snd_Expiry, hth.1]
          · rw [if_neg hth] at hexp
            obtain ⟨e1, hm1, hE1⟩ := inv2 t h hexp
            have hh : h ≠ (e.Hash keccak).1 := by
              intro hcon
              subst hcon
              rw [hm1] at hdup2
              exact absurd hdup2 (by simp)
            refine ⟨e1, ?_, hE1⟩
            rw [show (withMsgBucket keccak s e).messages h =
                (if h = (e.Hash keccak).1 then some ((e.Hash keccak).2)
                  else s.messages h) from rfl, if_neg hh]
            exact hm1

/-- C3: the cross-index invariant — every pooled hash appears in exactly
one expiration bucket, the one keyed by its envelope's expiry (together
with the converse inclusion that makes the invariant inductive) — is
preserved by `add` and by `expire`. -/
theorem pool_cross_index_invariant (keccak : List Nat → List Nat) (s : Whisper)
    (now : Nat) (e : Envelope) (hinv : PoolInv s) :
    PoolInv (s.add keccak now e).state ∧ PoolInv (s.expire now) := by
  exact ⟨add_preserves_inv keccak s now e hinv, expire_preserves_inv s now hinv⟩

theorem add_preserves_allLive (keccak : List Nat → List Nat) (s : Whisper)
    (now : Nat) (e : Envelope) (hlive : allLive s now) :
    allLive (s.add keccak now e).state now := by
  by_cases hst : e.Expiry ≤ now
  · rw [add_stale keccak s now e hst]; exact hlive
  · by_cases hdup : (s.messages ((e.Hash keccak).1)).isSome = true
    · rw [add_duplicate keccak s now e hst hdup]; exact hlive
    · have hdup2 : (s.messages ((e.Hash keccak).1)).isSome = false := by simpa using hdup
      by_cases hbkt : s.expirations e.Expiry ((e.Hash keccak).1) = true
      · rw [add_new_inBucket keccak s now e hst hdup2 hbkt]
        intro h e1 hm
        rw [show (withMsg keccak s e).messages h =
            (if h = (e.Hash keccak).1 then some ((e.Hash keccak).2)
              else s.messages h) from rfl] at hm
        by_cases hh : h = (e.Hash keccak).1
        · rw [if_pos hh] at hm
          have he1 : e1 = (e.Hash keccak).2 := (Option.some.inj hm).symm
          subst he1
          rw [Hash_snd_Expiry]
          omega
        · rw [if_neg hh] at hm
          exact hlive h e1 hm
      · have hbkt2 : s.expirations e.Expiry ((e.Hash keccak).1) = false := by
          simpa using hbkt
        rw [add_new_newBucket keccak s now e hst hdup2 hbkt2]
        intro h e1 hm
        rw [show (withMsgBucket keccak s e).messages h =
            (if h = (e.Hash keccak).1 then some ((e.Hash keccak).2)
              else s.messages h) from rfl] at hm
        by_cases hh : h = (e.Hash keccak).1
        · rw [if_pos hh] at hm
          have he1 : e1 = (e.Hash keccak).2 := (Option.some.inj hm).symm
          subst he1
          rw [Hash_snd_Expiry]
          omega
        · rw [if_neg hh] at hm
          exact hlive h e1 hm

theorem expire_allLive (s : Whisper) (now : Nat) (hinv : PoolInv s) :
    allLive (s.expire now) now := by
  obtain ⟨inv1, _⟩ := hinv
  intro h e hm
  rw [expire_messages] at hm
  by_cases hany : (List.range (now + 1)).any (fun t => s.expirations t h) = true
  · rw [if_pos hany] at hm; exact absurd hm (by simp)
  · rw [if_neg hany] at hm
    by_contra hcon
    have hle : e.Expiry ≤ now := by omega
    have hexp : s.expirations e.Expiry h = true := (inv1 h e hm e.Expiry).2 rfl
    exact hany ((range_any_iff now _).2 ⟨e.Expiry, hle, by simpa using hexp⟩)

/-- C2: pool liveness — `add` silently rejects an envelope whose expiry
is not in the future (returning no error and leaving both indexes
unchanged); `add` preserves the all-expiries-future invariant; after an
`expire` sweep at the read time every remaining envelope has a strictly
future expiry (given the cross-index invariant); and `expire` removes
every envelope whose bucket timestamp is not in the future. -/
theorem pool_liveness (keccak : List Nat → List Nat) (s : Whisper) (now : Nat)
    (e : Envelope) :
    (e.Expiry ≤ now → s.add keccak now e = ⟨s, false, none⟩) ∧
    (allLive s now → allLive (s.add keccak now e).state now) ∧
    (PoolInv s → allLive (s.expire now) now) ∧
    (∀ t h, t ≤ now → s.expirations t h = true → (s.expire now).messages h = none) := by
  refine ⟨fun hst => add_stale keccak s now e hst,
    fun hl => add_preserves_allLive keccak s now e hl,
    fun hinv => expire_allLive s now hinv, ?_⟩
  intro t h ht hexp
  rw [expire_messages]
  rw [if_pos ((range_any_iff now _).2 ⟨t, ht, by simpa using hexp⟩)]

/-- C10 (implicit): `add` returns a nil error on every path — stale,
duplicate and fresh insert alike — `Send` is literally `add`, and so the
failed-insertion log branch in `handlePeer` can never fire. -/
theorem add_error_always_nil (keccak : List Nat → List Nat) (s : Whisper)
    (now : Nat) (e : Envelope) :
    (s.add keccak now e).err = none ∧
    s.Send keccak now e = s.add keccak now e ∧
    handlePeerLogsFailure keccak s now e = false := by
  have herr : (s.add keccak now e).err = none := by
    by_cases hst : e.Expiry ≤ now
    · rw [add_stale keccak s now e hst]
    · by_cases hdup : (s.messages ((e.Hash keccak).1)).isSome = true
      · rw [add_duplicate keccak s now e hst hdup]
      · have hdup2 : (s.messages ((e.Hash keccak).1)).isSome = false := by
          simpa using hdup
        by_cases hbkt : s.expirations e.Expiry ((e.Hash keccak).1) = true
        · rw [add_new_inBucket keccak s now e hst hdup2 hbkt]
        · have hbkt2 : s.expirations e.Expiry ((e.Hash keccak).1) = false := by
            simpa using hbkt
          rw [add_new_newBucket keccak s now e hst hdup2 hbkt2]
  refine ⟨herr, rfl, ?_⟩
  rw [handlePeerLogsFailure, herr]
  rfl

/-- `binary.BigEndian.PutUint32`: the four big-endian bytes of a 32-bit
value. -/
def beBytes4 (n : Nat) : List Nat :=
  [n / 2 ^ 24 % 256, n / 2 ^ 16 % 256, n / 2 ^ 8 % 256, n % 256]

/-- The constant head of the sealing buffer: `copy(d[:32], ...)` copies
at most the first 32 bytes of the nonce-less encoding. -/
def sealBase (e : Envelope) : List Nat := (rlpWithoutNonce e).take 32

/-- The 64-byte buffer hashed for a candidate nonce: the copied prefix
(at most 32 bytes of the nonce-less encoding, the rest of the buffer
still zero) with the candidate written big-endian at offset 60. -/
def powBuffer (e : Envelope) (nonce : Nat) : List Nat :=
  sealBase e ++ List.replicate (60 - (sealBase e).length) 0 ++ beBytes4 nonce

/-- The eight bits of a byte, most significant first. -/
def byteBits (b : Nat) : List Bool :=
  [decide (b / 128 % 2 = 1), decide (b / 64 % 2 = 1), decide (b / 32 % 2 = 1),
   decide (b / 16 % 2 = 1), decide (b / 8 % 2 = 1), decide (b / 4 % 2 = 1),
   decide (b / 2 % 2 = 1), decide (b % 2 = 1)]

/-- Modelled from the spec: the candidate's score is the number of
leading zero bits of the digest (`common.FirstBitSet`/`common.BigD` are
not among the analysed sources; §4.1 of the spec defines the score as
the count of leading zero bits of the Keccak-256 digest). -/
def leadingZeroBits (l : List Nat) : Nat :=
  ((l.map byteBits).flatten.takeWhile (fun b => !b)).length

/-- Score of a candidate nonce for envelope `e`. -/
def powScore (keccak : List Nat → List Nat) (e : Envelope) (nonce : Nat) : Nat :=
  leadingZeroBits (keccak (powBuffer e nonce))

/-- The best-nonce fold of `Seal`: walk the candidate list keeping
`(bestNonce, bestBit)`, replacing the pair only on a strict
improvement. -/
def sealLoop (sc : Nat → Nat) (init : Nat × Nat) (cands : List Nat) : Nat × Nat :=
  cands.foldl (fun st c => if st.2 < sc c then (c, sc c) else st) init

/-- `Envelope.Seal`: examine candidate nonces `0, 1, 2, …` in rounds of
1024 until the deadline (`rounds` is the number of executed outer
iterations, determined by the wall clock; a positive budget executes at
least one), then store the best candidate in `Nonce`. -/
def Envelope.Seal (keccak : List Nat → List Nat) (e : Envelope) (rounds : Nat) :
    Envelope :=
  { e with Nonce := (sealLoop (powScore keccak e) (e.Nonce, 0)
      (List.range (1024 * rounds))).1 }

theorem sealLoop_init_le (sc : Nat → Nat) (cands : List Nat) :
    ∀ init : Nat × Nat, init.2 ≤ (sealLoop sc init cands).2 := by
  induction cands with
  | nil => intro init; exact le_refl _
  | cons c cs ih =>
      intro init
      show init.2 ≤ (sealLoop sc (if init.2 < sc c then (c, sc c) else init) cs).2
      refine le_trans ?_ (ih _)
      by_cases hlt : init.2 < sc c
      · rw [if_pos hlt]; exact le_of_lt hlt
      · rw [if_neg hlt]

theorem sealLoop_ge (sc : Nat → Nat) (cands : List Nat) :
    ∀ init : Nat × Nat, ∀ c ∈ cands, sc c ≤ (sealLoop sc init cands).2 := by
  induction cands with
  | nil => intro init c hc; exact absurd hc (by simp)
  | cons c cs ih =>
      intro init d hd
      rcases List.mem_cons.1 hd with hdc | hdcs
      · subst hdc
        show sc d ≤ (sealLoop sc (if init.2 < sc d then (d, sc d) else init) cs).2
        refine le_trans ?_ (sealLoop_init_le sc cs _)
        by_cases hlt : init.2 < sc d
        · rw [if_pos hlt]
        · rw [if_neg hlt]; omega
      · exact ih _ d hdcs

theorem sealLoop_cons (sc : Nat → Nat) (c : Nat) (cs : List Nat) (init : Nat × Nat) :
    sealLoop sc init (c :: cs) =
      sealLoop sc (if init.2 < sc c then (c, sc c) else init) cs := rfl

theorem sealLoop_result (sc : Nat → Nat) (cands : List Nat) :
    ∀ init : Nat × Nat, sealLoop sc init cands = init ∨
      ((sealLoop sc init cands).1 ∈ cands ∧
        sc (sealLoop sc init cands).1 = (sealLoop sc init cands).2) := by
  induction cands with
  | nil => intro init; exact Or.inl rfl
  | cons c cs ih =>
      intro init
      rw [sealLoop_cons]
      by_cases hlt : init.2 < sc c
      · rw [if_pos hlt]
        rcases ih (c, sc c) with heq | ⟨hmem, hval⟩
        · right
          rw [heq]
          exact ⟨by simp, rfl⟩
        · right
          exact ⟨List.mem_cons_of_mem _ hmem, hval⟩
      · rw [if_neg hlt]
        rcases ih init with heq | ⟨hmem, hval⟩
        · exact Or.inl heq
        · right
          exact ⟨List.mem_cons_of_mem _ hmem, hval⟩

/-- C5: for a positive proof-of-work budget (at least one executed round
of 1024 candidates) and a fresh envelope (`Nonce = 0`, as built by
`NewEnvelope`), `Seal` scores every candidate as the number of leading
zero bits of the digest of the 64-byte buffer whose head holds the
constant nonce-less-encoding prefix and whose last 4 bytes hold the
big-endian candidate, and the sealed nonce is an examined candidate of
maximal score. -/
theorem seal_picks_best_candidate (keccak : List Nat → List Nat) (e : Envelope)
    (rounds : Nat) (hr : 1 ≤ rounds) (hn : e.Nonce = 0) :
    (e.Seal keccak rounds).Nonce < 1024 * rounds ∧
    (∀ c, c < 1024 * rounds →
      powScore keccak e c ≤ powScore keccak e ((e.Seal keccak rounds).Nonce)) ∧
    (∀ c, (powBuffer e c).length = 64 ∧
      (powBuffer e c).take 32 =
        sealBase e ++ List.replicate (32 - (sealBase e).length) 0 ∧
      (powBuffer e c).drop 60 = beBytes4 c) := by
  have hsb : (sealBase e).length ≤ 32 := by
    rw [sealBase]
    simp
  have hbuf : ∀ c, (powBuffer e c).length = 64 ∧
      (powBuffer e c).take 32 =
        sealBase e ++ List.replicate (32 - (sealBase e).length) 0 ∧
      (powBuffer e c).drop 60 = beBytes4 c := by
    intro c
    refine ⟨?_, ?_, ?_⟩
    · rw [powBuffer]
      simp [beBytes4]
      omega
    · rw [powBuffer, List.append_assoc, List.take_append_eq_append_take,
        List.take_of_length_le hsb, List.take_append_eq_append_take]
      have h1 : (List.replicate (60 - (sealBase e).length) (0 : Nat)).take
          (32 - (sealBase e).length) =
          List.replicate (32 - (sealBase e).length) 0 := by
        rw [List.take_replicate]
        congr 1
        omega
      have h2 : 32 - (sealBase e).length -
          (List.replicate (60 - (sealBase e).length) (0 : Nat)).length = 0 := by
        simp
        omega
      rw [h1, h2]
      simp
    · rw [powBuffer, List.append_assoc, List.drop_append_eq_append_drop,
        List.drop_of_length_le (by omega), List.drop_append_eq_append_drop]
      have h2 : 60 - (sealBase e).length -
          (List.replicate (60 - (sealBase e).length) (0 : Nat)).length = 0 := by
        simp
      rw [h2]
      simp
  refine ⟨?_, ?_, hbuf⟩
  · rw [Envelope.Seal, hn]
    show (sealLoop (powScore keccak e) (0, 0) (List.range (1024 * rounds))).1 <
      1024 * rounds
    rcases sealLoop_result (powScore keccak e) (List.range (1024 * rounds)) (0, 0)
      with heq | ⟨hmem, _⟩
    · rw [heq]
      show 0 < 1024 * rounds
      omega
    · exact List.mem_range.1 hmem
  · intro c hc
    rw [Envelope.Seal, hn]
    show powScore keccak e c ≤ powScore keccak e
      ((sealLoop (powScore keccak e) (0, 0) (List.range (1024 * rounds))).1)
    have hle : powScore keccak e c ≤
        (sealLoop (powScore keccak e) (0, 0) (List.range (1024 * rounds))).2 :=
      sealLoop_ge _ _ _ c (List.mem_range.2 hc)
    rcases sealLoop_result (powScore keccak e) (List.range (1024 * rounds)) (0, 0)
      with heq | ⟨hmem2, hval⟩
    · rw [heq] at hle ⊢
      show powScore keccak e c ≤ powScore keccak e 0
      simp at hle
      simp [hle]
    · rw [hval]
      exact hle

/-- The signature flag: the high bit of the flags byte (`1 << 7`). -/
def signatureFlag : Nat := 128

/-- `signatureLength`: 65 bytes (r ‖ s ‖ v). -/
def signatureLength : Nat := 65

/-- `(Expiry - TTL)` as computed on `uint32` values (wrapping
subtraction), the `Sent` stamp of an opened message. -/
def sentTime (e : Envelope) : Nat :=
  (e.Expiry % 2 ^ 32 + 2 ^ 32 - e.TTL % 2 ^ 32) % 2 ^ 32

/-- The inner Whisper message as produced by `Envelope.Open`. -/
structure Message where
  Flags : Nat
  Signature : List Nat
  Payload : List Nat
  Sent : Nat
  TTL : Nat
  Hash : List Nat
deriving DecidableEq, Repr

/-- Outcome of the parsing phase of `Envelope.Open` (lines 86–103):
either the runtime out-of-range fault of `data[0]` on an empty data
slice, the malformed-envelope error, or the parsed message. -/
inductive ParseOutcome where
  | indexOutOfRange
  | malformed
  | parsed (m : Message)
deriving DecidableEq, Repr

/-- The message skeleton filled in before the flags dispatch. -/
def parsedBase (keccak : List Nat → List Nat) (e : Envelope) (f : Nat) : Message :=
  { Flags := f, Signature := [], Payload := [], Sent := sentTime e,
    TTL := e.TTL, Hash := (e.Hash keccak).1 }

/-- The parsing phase of `Envelope.Open`: read the flags byte (an
out-of-range access when `Data` is empty), then split off the 65-byte
signature when the flag is set, failing when too little data remains. -/
def Envelope.parseOpen (keccak : List Nat → List Nat) (e : Envelope) : ParseOutcome :=
  match e.Data with
  | [] => .indexOutOfRange
  | f :: rest =>
    if f.land signatureFlag = signatureFlag then
      if rest.length < signatureLength then .malformed
      else .parsed { parsedBase keccak e f with
        Signature := rest.take signatureLength,
        Payload := rest.drop signatureLength }
    else .parsed { parsedBase keccak e f with Payload := rest }

/-- Modelled from the spec: outcome of the ECIES decryption primitive
(`Message.decrypt` and the `ecies` library are not among the analysed
sources).  §4.2: success yields the plaintext; the invalid-public-key
marker means "not addressed to this key"; anything else is a failure. -/
inductive DecryptOutcome where
  | success (plaintext : List Nat)
  | invalidPublicKey
  | failure
deriving DecidableEq, Repr

/-- Result of `Envelope.Open`. -/
inductive OpenOutcome where
  | ok (m : Message)
  | notForMe (m : Message)
  | errMalformed
  | errDecrypt
  | indexOutOfRange
deriving DecidableEq, Repr

/-- `Envelope.Open`: parse, then (when a key was supplied) dispatch on
the decryption outcome — success rewrites the payload with the
plaintext, the invalid-public-key signal returns the message together
with that error, anything else drops the message and reports a decrypt
failure. -/
def Envelope.Open (keccak : List Nat → List Nat)
    (decrypt : Message → DecryptOutcome) (hasKey : Bool) (e : Envelope) :
    OpenOutcome :=
  match e.parseOpen keccak with
  | .indexOutOfRange => .indexOutOfRange
  | .malformed => .errMalformed
  | .parsed m =>
    if hasKey then
      match decrypt m with
      | .success pt => .ok { m with Payload := pt }
      | .invalidPublicKey => .notForMe m
      | .failure => .errDecrypt
    else .ok m

theorem open_errMalformed_iff_parse (keccak : List Nat → List Nat)
    (decrypt : Message → DecryptOutcome) (hasKey : Bool) (e : Envelope) :
    Envelope.Open keccak decrypt hasKey e = .errMalformed ↔
      e.parseOpen keccak = .malformed := by
  rw [Envelope.Open]
  cases hp : e.parseOpen keccak with
  | indexOutOfRange => simp
  | malformed => simp
  | parsed m =>
      cases hasKey
      · simp
      · cases hdec : decrypt m <;> simp [hdec]

/-- C6: opening fails with the malformed-message error exactly when the
signature flag is set and fewer than 65 bytes follow the flags byte;
with the flag set and enough data, the 65 bytes after the flags byte
become the signature and the rest the payload; with the flag clear the
whole remainder becomes the payload. -/
theorem open_malformed_iff (keccak : List Nat → List Nat)
    (e : Envelope) (f : Nat) (rest : List Nat) (hdata : e.Data = f :: rest) :
    (e.parseOpen keccak = .malformed ↔
      f.land signatureFlag = signatureFlag ∧ rest.length < signatureLength) ∧
    (∀ decrypt hasKey, Envelope.Open keccak decrypt hasKey e = .errMalformed ↔
      f.land signatureFlag = signatureFlag ∧ rest.length < signatureLength) ∧
    (f.land signatureFlag = signatureFlag → signatureLength ≤ rest.length →
      e.parseOpen keccak = .parsed { parsedBase keccak e f with
        Signature := rest.take signatureLength,
        Payload := rest.drop signatureLength }) ∧
    (f.land signatureFlag ≠ signatureFlag →
      e.parseOpen keccak = .parsed { parsedBase keccak e f with Payload := rest }) := by
  have hparse : e.parseOpen keccak =
      (if f.land signatureFlag = signatureFlag then
        if rest.length < signatureLength then .malformed
        else .parsed { parsedBase keccak e f with
          Signature := rest.take signatureLength,
          Payload := rest.drop signatureLength }
      else .parsed { parsedBase keccak e f with Payload := rest }) := by
    rw [Envelope.parseOpen, hdata]
  refine ⟨?_, ?_, ?_, ?_⟩
  · rw [hparse]
    by_cases hf : f.land signatureFlag = signatureFlag
    · rw [if_pos hf]
      by_cases hlen : rest.length < signatureLength
      · rw [if_pos hlen]
        simp [hf, hlen]
      · rw [if_neg hlen]
        simp [hf, hlen]
    · rw [if_neg hf]
      simp [hf]
  · intro decrypt hasKey
    rw [open_errMalformed_iff_parse, hparse]
    by_cases hf : f.land signatureFlag = signatureFlag
    · rw [if_pos hf]
      by_cases hlen : rest.length < signatureLength
      · rw [if_pos hlen]
        simp [hf, hlen]
      · rw [if_neg hlen]
        simp [hf, hlen]
    · rw [if_neg hf]
      simp [hf]
  · intro hf hlen
    rw [hparse, if_pos hf, if_neg (by omega)]
  · intro hf
    rw [hparse, if_neg hf]

/-- C7: with a key supplied, once the envelope parses, `Open` has
exactly the three decryption outcomes — plaintext substituted on
success, message plus not-for-me signal on the invalid-public-key
marker, and a decrypt-failure error (with no message) otherwise. -/
theorem open_decrypt_trichotomy (keccak : List Nat → List Nat)
    (decrypt : Message → DecryptOutcome) (e : Envelope) (m : Message)
    (hparse : e.parseOpen keccak = .parsed m) :
    (∃ pt, decrypt m = .success pt ∧
      Envelope.Open keccak decrypt true e = .ok { m with Payload := pt }) ∨
    (decrypt m = .invalidPublicKey ∧
      Envelope.Open keccak decrypt true e = .notForMe m) ∨
    (decrypt m = .failure ∧
      Envelope.Open keccak decrypt true e = .errDecrypt) := by
  rw [Envelope.Open, hparse]
  rcases hdec : decrypt m with pt | _ | _
  · exact Or.inl ⟨pt, rfl, by simp [hdec]⟩
  · exact Or.inr (Or.inl ⟨rfl, by simp [hdec]⟩)
  · exact Or.inr (Or.inr ⟨rfl, by simp [hdec]⟩)

/-- An envelope whose data field is empty: a well-formed wire value (an
empty byte string is valid RLP) that `Open` cannot handle. -/
def emptyDataEnvelope : Envelope :=
  { Expiry := 100, TTL := 50, Topics := [], Data := [], Nonce := 0, hash := zeroHash }

/-- C8: `Open` on an envelope with empty data performs the
out-of-bounds access `data[0]` (a runtime panic in Go) instead of
returning a message or an error — the no-panic-path claim fails on this
input. -/
theorem open_empty_data_out_of_range (keccak : List Nat → List Nat)
    (decrypt : Message → DecryptOutcome) (hasKey : Bool) :
    Envelope.Open keccak decrypt hasKey emptyDataEnvelope = .indexOutOfRange := rfl

/-- Modelled from the spec: the outcome of `crypto.GenerateKey`
(`crypto.go`; the underlying `ecdsa.GenerateKey` RNG is outside the
analysed sources) — either a fresh key (an abstract token) or an RNG
error. -/
inductive KeyGenResult where
  | ok (key : Nat)
  | fail
deriving DecidableEq, Repr

/-- How `NewIdentity` ends: returning a key to the caller (with the
updated identity registry) or aborting the process via `panic`. -/
inductive NewIdentityOutcome where
  | returned (key : Nat) (keys : List Nat)
  | aborted
deriving DecidableEq, Repr

/-- Whether the call returned control to the caller. -/
def NewIdentityOutcome.returnsControl : NewIdentityOutcome → Bool
  | .returned _ _ => true
  | .aborted => false

/-- `Whisper.NewIdentity` (whisper.go lines 127–135): on success the key
is injected into the identity registry and returned; on a key-generation
error the code calls `panic(err)`, aborting instead of returning. -/
def Whisper.NewIdentity (gen : KeyGenResult) (keys : List Nat) : NewIdentityOutcome :=
  match gen with
  | .ok k => .returned k (k :: keys)
  | .fail => .aborted

/-- C9 counterexample: with a failing key generator, `NewIdentity` does
not return control to the caller — it panics. -/
theorem newIdentity_rng_failure_aborts :
    (Whisper.NewIdentity .fail []).returnsControl = false := rfl

/-- C9 (amended): on RNG success `NewIdentity` returns the new key to
the caller and registers it; on RNG failure it panics (aborting the
process) instead of surfacing an error to the caller. -/
theorem newIdentity_amended (gen : KeyGenResult) (keys : List Nat) :
    (∀ k, gen = .ok k → Whisper.NewIdentity gen keys = .returned k (k :: keys)) ∧
    (gen = .fail → Whisper.NewIdentity gen keys = .aborted) := by
  constructor
  · intro k hk
    subst hk
    rfl
  · intro hk
    subst hk
    rfl

/-! ### Concrete instances used by the witnesses -/

/-- A concrete stand-in digest function. -/
def keccak0 : List Nat → List Nat := fun _ => List.replicate 32 1

/-- A concrete stand-in decryption primitive. -/
def decrypt0 : Message → DecryptOutcome := fun _ => .failure

/-- A concrete well-formed envelope with an unset hash cache. -/
def e0 : Envelope :=
  { Expiry := 10, TTL := 5, Topics := [[1, 2, 3, 4]], Data := [200, 7],
    Nonce := 2, hash := zeroHash }

/-- A concrete envelope that is already stale at time 5. -/
def eStale : Envelope :=
  { Expiry := 3, TTL := 1, Topics := [], Data := [1], Nonce := 0, hash := zeroHash }

/-- A concrete unsealed envelope (`Nonce = 0`). -/
def eSeal : Envelope :=
  { Expiry := 10, TTL := 5, Topics := [], Data := [], Nonce := 0, hash := zeroHash }

/-- A concrete envelope whose data is the single clear-flags byte. -/
def eOpen : Envelope :=
  { Expiry := 10, TTL := 5, Topics := [], Data := [0], Nonce := 0, hash := zeroHash }

/-- The message `eOpen` parses to. -/
def mOpen : Message := { parsedBase keccak0 eOpen 0 with Payload := [] }

theorem add_idempotent_witness :
    ((emptyPool.add keccak0 0 e0).state.add keccak0 0 e0).state =
      (emptyPool.add keccak0 0 e0).state ∧
    ((emptyPool.add keccak0 0 e0).state.add keccak0 0 e0).dispatched = false :=
  add_idempotent keccak0 emptyPool e0 0 0 (le_refl 0)

theorem pool_liveness_witness :
    emptyPool.add keccak0 5 eStale = ⟨emptyPool, false, none⟩ ∧
    allLive (emptyPool.add keccak0 5 e0).state 5 ∧
    allLive (emptyPool.expire 5) 5 := by
  refine ⟨(pool_liveness keccak0 emptyPool 5 eStale).1 (by decide),
    (pool_liveness keccak0 emptyPool 5 e0).2.1 ?_,
    (pool_liveness keccak0 emptyPool 5 e0).2.2.1 ?_⟩
  · intro h e hm
    simp [emptyPool] at hm
  · constructor
    · intro h e hm
      simp [emptyPool] at hm
    · intro t h hexp
      simp [emptyPool] at hexp

theorem pool_cross_index_invariant_witness :
    PoolInv (emptyPool.add keccak0 0 e0).state ∧ PoolInv (emptyPool.expire 0) := by
  refine pool_cross_index_invariant keccak0 emptyPool 0 e0 ?_
  constructor
  · intro h e hm
    simp [emptyPool] at hm
  · intro t h hexp
    simp [emptyPool] at hexp

theorem envelope_hash_witness :
    hashConsistent keccak0 e0 ∧ wfEnvelope e0 ∧
      (e0.Hash keccak0).1 = keccak0 (encodeEnvelope e0) :=
  ⟨Or.inl rfl, by decide,
    (envelope_hash_deterministic_and_roundtrip keccak0 e0 (Or.inl rfl) (by decide)).1⟩

theorem seal_witness :
    (1 : Nat) ≤ 1 ∧ eSeal.Nonce = 0 ∧ (eSeal.Seal keccak0 1).Nonce < 1024 * 1 :=
  ⟨le_refl 1, rfl, (seal_picks_best_candidate keccak0 eSeal 1 (le_refl 1) rfl).1⟩

theorem open_malformed_witness :
    eOpen.Data = 0 :: [] ∧
    eOpen.parseOpen keccak0 = .parsed { parsedBase keccak0 eOpen 0 with Payload := [] } :=
  ⟨rfl, (open_malformed_iff keccak0 eOpen 0 [] rfl).2.2.2 (by decide)⟩

theorem open_trichotomy_witness :
    (∃ pt, decrypt0 mOpen = .success pt ∧
      Envelope.Open keccak0 decrypt0 true eOpen = .ok { mOpen with Payload := pt }) ∨
    (decrypt0 mOpen = .invalidPublicKey ∧
      Envelope.Open keccak0 decrypt0 true eOpen = .notForMe mOpen) ∨
    (decrypt0 mOpen = .failure ∧
      Envelope.Open keccak0 decrypt0 true eOpen = .errDecrypt) :=
  open_decrypt_trichotomy keccak0 decrypt0 eOpen mOpen rfl

theorem newIdentity_amended_witness :
    Whisper.NewIdentity (.ok 5) [] = .returned 5 [5] ∧
    Whisper.NewIdentity .fail [] = .aborted :=
  ⟨(newIdentity_amended (.ok 5) []).1 5 rfl, (newIdentity_amended .fail []).2 rfl⟩

/-- An envelope expiring at second 1. -/
def eShort : Envelope :=
  { Expiry := 1, TTL := 1, Topics := [], Data := [1], Nonce := 0, hash := zeroHash }

/-- C2 counterexample: the literal read invariant fails between sweeps —
an envelope accepted at time 0 with expiry 1 is still in the `messages`
index at a consistent read at time 1 (no sweep having run), at which
moment its expiry is not strictly greater than the wall time. -/
theorem pool_read_can_observe_stale :
    ¬ allLive ((emptyPool.add keccak0 0 eShort).state) 1 := by
  intro hcon
  have hm : ((emptyPool.add keccak0 0 eShort).state).messages ((eShort.Hash keccak0).1) =
      some ((eShort.Hash keccak0).2) := by
    rw [add_new_newBucket keccak0 emptyPool 0 eShort (by decide) rfl rfl]
    simp [withMsgBucket]
  have := hcon _ _ hm
  rw [Hash_snd_Expiry] at this
  simp [eShort] at this
